import Mathlib

/-!
# Verification of the OCR post-processing core

Shallow embedding of the correction engine of this repository:
`post_process_enhanced.py` (confusion matrix, weighted edit distance,
candidate generation, word correction, text processing),
`post_process_context.py` (bigram/trigram context scoring), and
`build_corpus_model.py` (n-gram model merging).

Python strings are modelled as `List Char`; Python floats as `ℚ`
(all arithmetic performed by the modelled code is exact decimal
arithmetic on the modelled inputs); Python `None` as `Option.none`;
Python dicts that are only iterated or looked up as association lists;
Python `Counter`/`defaultdict(int)` lookups as total functions to `ℕ`.
-/

/-- Model of `CONFUSION_MATRIX` from `post_process_enhanced.py`: an ordered
association list from a character to the list of its confusable replacement
strings.  Values are strings (as `List Char`): the entry for `'ل'` contains
the two-character string `"لا"`. -/
def confusionMatrix : List (Char × List (List Char)) :=
  [ ('ب', [['پ'], ['ت'], ['ث'], ['ن'], ['ی']]),
    ('پ', [['ب'], ['ت'], ['ث'], ['چ']]),
    ('ت', [['ب'], ['پ'], ['ث'], ['ن']]),
    ('ث', [['ب'], ['پ'], ['ت']]),
    ('ج', [['چ'], ['ح'], ['خ']]),
    ('چ', [['ج'], ['ح'], ['خ']]),
    ('ح', [['ج'], ['چ'], ['خ']]),
    ('خ', [['ج'], ['چ'], ['ح']]),
    ('د', [['ذ']]),
    ('ذ', [['د']]),
    ('ر', [['ز'], ['ژ'], ['و']]),
    ('ز', [['ر'], ['ژ']]),
    ('ژ', [['ز'], ['ر']]),
    ('س', [['ش']]),
    ('ش', [['س']]),
    ('ص', [['ض']]),
    ('ض', [['ص']]),
    ('ط', [['ظ']]),
    ('ظ', [['ط']]),
    ('ع', [['غ']]),
    ('غ', [['ع']]),
    ('ف', [['ق']]),
    ('ق', [['ف']]),
    ('ک', [['گ'], ['ك']]),
    ('گ', [['ک'], ['ك']]),
    ('ل', [['ا'], ['ل', 'ا']]),
    ('م', [['ن']]),
    ('ن', [['ب'], ['ت'], ['ث'], ['م'], ['ی']]),
    ('و', [['ر'], ['ؤ']]),
    ('ه', [['ة'], ['ۀ'], ['ھ']]),
    ('ی', [['ي'], ['ى'], ['ئ'], ['ب'], ['ت'], ['ن']]),
    ('ك', [['ک'], ['گ']]),
    ('ي', [['ی'], ['ى']]),
    ('ة', [['ه'], ['ۀ']]),
    ('أ', [['ا'], ['إ'], ['آ']]),
    ('إ', [['ا'], ['أ'], ['آ']]),
    ('آ', [['ا'], ['أ'], ['إ']]),
    ('ؤ', [['و'], ['ء']]),
    ('ئ', [['ی'], ['ء']]),
    ('۴', [['۵'], ['4']]),
    ('۵', [['۴'], ['5']]),
    ('۶', [['6']]),
    ('٤', [['٥'], ['۴'], ['۵']]),
    ('٥', [['٤'], ['۴'], ['۵']]),
    ('٦', [['۶'], ['6']]) ]

/-- `CONFUSION_MATRIX.get(c, [])`: the confusable strings of character `c`. -/
def matrixLookup (c : Char) : List (List Char) :=
  (confusionMatrix.lookup c).getD []

/-- Model of the module-level build of `OCR_MIGHT_PRODUCE`
(`post_process_enhanced.py` lines 94-100): for a string `s`, the set of
characters `correct` such that `s` occurs among `CONFUSION_MATRIX[correct]`,
together with `s` itself whenever `s` is a key of the matrix (the build adds
`correct_char` to its own entry).  The Python value is a `set`; it is modelled
as a list whose membership is the set membership. -/
def ocrMightProduce (s : List Char) : List (List Char) :=
  (confusionMatrix.filterMap fun e => if s ∈ e.2 then some [e.1] else none)
    ++ (if s ∈ confusionMatrix.map (fun e => [e.1]) then [s] else [])

/-- Substitution cost of `confusion_distance`: `0` for equal characters,
`3/10` when either character lists the other among its confusables
(the membership test compares the one-character string `[c]` against the
stored replacement strings, exactly as Python compares `c2 in
CONFUSION_MATRIX.get(c1, [])`), and `1` otherwise. -/
def subCost (c1 c2 : Char) : ℚ :=
  if c1 = c2 then 0
  else if [c2] ∈ matrixLookup c1 ∨ [c1] ∈ matrixLookup c2 then 3/10
  else 1

/-- Recurrence of the dynamic program of `confusion_distance`
(`post_process_enhanced.py` lines 119-150): deletion and insertion cost `1`,
substitution costs `subCost`.  `edSpec xs ys` is the value `dp[len1][len2]`
of the Python cost matrix for the words `xs` and `ys`. -/
def edSpec : List Char → List Char → ℚ
  | [], ys => ys.length
  | xs, [] => xs.length
  | x :: xs, y :: ys =>
    min (edSpec xs (y :: ys) + 1)
      (min (edSpec (x :: xs) ys + 1) (edSpec xs ys + subCost x y))
termination_by xs ys => (xs.length, ys.length)

/-- One row update of the cost matrix: from the row of values
`edSpec xs (ys.drop j)` (argument `prev`, indexed by `j`) to the row of values
`edSpec (x :: xs) (ys.drop j)`. -/
def edRowStep (x : Char) : List Char → List ℚ → List ℚ
  | [], prev => [prev.headD 0 + 1]
  | y :: ys, prev =>
    let rest := edRowStep x ys prev.tail
    min (prev.headD 0 + 1)
      (min (rest.headD 0 + 1) (prev.tail.headD 0 + subCost x y)) :: rest

/-- Row-by-row evaluation of the cost matrix of `confusion_distance`:
`edRows ys xs` is the list of values `edSpec xs t` for the suffixes `t` of
`ys`, computed in quadratic time like the Python loop fills `dp`. -/
def edRows (ys : List Char) : List Char → List ℚ
  | [] => ys.tails.map fun t => (t.length : ℚ)
  | x :: xs => edRowStep x ys (edRows ys xs)

/-- Executable value of the cost matrix: the entry for the full words. -/
def edFast (xs ys : List Char) : ℚ := (edRows ys xs).headD 0

theorem subCost_comm (c1 c2 : Char) : subCost c1 c2 = subCost c2 c1 := by
  unfold subCost
  by_cases h : c1 = c2
  · simp [h]
  · have h' : ¬ c2 = c1 := fun hh => h hh.symm
    rw [if_neg h, if_neg h']
    by_cases hm : [c2] ∈ matrixLookup c1 ∨ [c1] ∈ matrixLookup c2
    · rw [if_pos hm, if_pos (or_comm.mp hm)]
    · rw [if_neg hm, if_neg (fun hh => hm (or_comm.mp hh))]

theorem subCost_nonneg (c1 c2 : Char) : 0 ≤ subCost c1 c2 := by
  unfold subCost
  split
  · exact le_refl 0
  · split <;> norm_num

theorem edSpec_nil_left (ys : List Char) : edSpec [] ys = ys.length := by
  cases ys <;> simp [edSpec]

theorem edSpec_nil_right (xs : List Char) : edSpec xs [] = xs.length := by
  cases xs <;> simp [edSpec]

theorem edSpec_cons_cons (x y : Char) (xs ys : List Char) :
    edSpec (x :: xs) (y :: ys) =
      min (edSpec xs (y :: ys) + 1)
        (min (edSpec (x :: xs) ys + 1) (edSpec xs ys + subCost x y)) := by
  simp [edSpec]

theorem edSpec_nonneg (xs ys : List Char) : 0 ≤ edSpec xs ys := by
  induction xs, ys using edSpec.induct with
  | case1 ys => rw [edSpec_nil_left]; positivity
  | case2 xs => rw [edSpec_nil_right]; positivity
  | case3 x xs y ys ih1 ih2 ih3 =>
    rw [edSpec_cons_cons]
    have hs := subCost_nonneg x y
    have h1 : (0:ℚ) ≤ edSpec xs (y :: ys) + 1 := by linarith
    have h2 : (0:ℚ) ≤ edSpec (x :: xs) ys + 1 := by linarith
    have h3 : (0:ℚ) ≤ edSpec xs ys + subCost x y := by linarith
    exact le_min h1 (le_min h2 h3)

theorem edSpec_comm (xs ys : List Char) : edSpec xs ys = edSpec ys xs := by
  induction xs, ys using edSpec.induct with
  | case1 ys => rw [edSpec_nil_left, edSpec_nil_right]
  | case2 xs => rw [edSpec_nil_left, edSpec_nil_right]
  | case3 x xs y ys ih1 ih2 ih3 =>
    rw [edSpec_cons_cons, edSpec_cons_cons, ih1, ih2, ih3, subCost_comm,
      min_left_comm]

theorem edRowStep_eq (x : Char) (xs : List Char) :
    ∀ ys : List Char,
      edRowStep x ys (ys.tails.map (edSpec xs)) =
        ys.tails.map (edSpec (x :: xs)) := by
  intro ys
  induction ys with
  | nil =>
    show edRowStep x [] ([[]].map (edSpec xs)) = [[]].map (edSpec (x :: xs))
    simp [edRowStep, edSpec_nil_right]
  | cons y ys ih =>
    simp only [List.tails_cons, List.map_cons, edRowStep, List.tail_cons,
      List.headD_cons]
    rw [ih]
    have hhead2 :
        (ys.tails.map (edSpec (x :: xs))).headD 0 = edSpec (x :: xs) ys := by
      cases ys <;> simp
    have hhead3 : (ys.tails.map (edSpec xs)).headD 0 = edSpec xs ys := by
      cases ys <;> simp
    rw [hhead2, hhead3, edSpec_cons_cons]

theorem edRows_eq (ys xs : List Char) :
    edRows ys xs = ys.tails.map (edSpec xs) := by
  induction xs with
  | nil =>
    unfold edRows
    refine List.map_congr_left fun t _ => ?_
    rw [edSpec_nil_left]
  | cons x xs ih => rw [edRows, ih, edRowStep_eq]

theorem edFast_eq (xs ys : List Char) : edFast xs ys = edSpec xs ys := by
  unfold edFast
  rw [edRows_eq]
  cases ys <;> simp

/-- Peeling a common prefix never increases the DP value: matching the equal
characters costs `0` at each step. -/
theorem edSpec_append_le (p xs ys : List Char) :
    edSpec (p ++ xs) (p ++ ys) ≤ edSpec xs ys := by
  induction p with
  | nil => simp
  | cons c p ih =>
    have h := edSpec_cons_cons c c (p ++ xs) (p ++ ys)
    calc edSpec (c :: p ++ xs) (c :: p ++ ys)
        ≤ edSpec (p ++ xs) (p ++ ys) + subCost c c := by
          rw [List.cons_append, List.cons_append, h]
          exact le_trans (min_le_right _ _) (min_le_right _ _)
      _ = edSpec (p ++ xs) (p ++ ys) := by simp [subCost]
      _ ≤ edSpec xs ys := ih

/-- Every edit operation costs at least `3/10`, so distinct words are at
distance at least `3/10`. -/
theorem edSpec_ne_lower (xs ys : List Char) (h : xs ≠ ys) :
    3/10 ≤ edSpec xs ys := by
  induction xs, ys using edSpec.induct with
  | case1 ys =>
    rw [edSpec_nil_left]
    have : ys ≠ [] := fun hh => h hh.symm
    have hlen : 1 ≤ ys.length := List.length_pos.mpr this
    have : (1:ℚ) ≤ ys.length := by exact_mod_cast hlen
    linarith
  | case2 xs =>
    rw [edSpec_nil_right]
    have : xs ≠ [] := by
      intro hh; subst hh; exact h rfl
    have hlen : 1 ≤ xs.length := List.length_pos.mpr this
    have : (1:ℚ) ≤ xs.length := by exact_mod_cast hlen
    linarith
  | case3 x xs y ys ih1 ih2 ih3 =>
    rw [edSpec_cons_cons]
    have n1 := edSpec_nonneg xs (y :: ys)
    have n2 := edSpec_nonneg (x :: xs) ys
    have n3 := edSpec_nonneg xs ys
    refine le_min (by linarith) (le_min (by linarith) ?_)
    by_cases hxy : x = y
    · subst hxy
      have hne : xs ≠ ys := by
        intro hh; apply h; rw [hh]
      have := ih3 hne
      have hsc : (0:ℚ) ≤ subCost x x := subCost_nonneg x x
      linarith
    · have hsc : 3/10 ≤ subCost x y := by
        unfold subCost
        rw [if_neg hxy]
        split <;> norm_num
      linarith

/-- Each edit operation changes the length difference by at most one and
costs at least as much, so the DP value dominates the length difference. -/
theorem edSpec_length_lower (xs ys : List Char) :
    ((xs.length : ℚ) - ys.length) ≤ edSpec xs ys := by
  induction xs, ys using edSpec.induct with
  | case1 ys =>
    rw [edSpec_nil_left]
    have : (0:ℚ) ≤ ys.length := by positivity
    simp only [List.length_nil, Nat.cast_zero]
    linarith
  | case2 xs => rw [edSpec_nil_right]; simp
  | case3 x xs y ys ih1 ih2 ih3 =>
    rw [edSpec_cons_cons]
    have hsc := subCost_nonneg x y
    simp only [List.length_cons] at ih1 ih2 ih3 ⊢
    push_cast at ih1 ih2 ih3 ⊢
    refine le_min (by linarith) (le_min (by linarith) (by linarith))

/-- Model of `confusion_distance` (`post_process_enhanced.py` lines 103-150):
equal words short-circuit to `0`; a length difference above `3` short-circuits
to the larger length; otherwise the weighted DP runs. -/
def confusionDistance (w1 w2 : List Char) : ℚ :=
  if w1 = w2 then 0
  else if 3 < ((w1.length : ℤ) - w2.length).natAbs then (max w1.length w2.length : ℕ)
  else edFast w1 w2

/-- Model of `confusion_similarity` (`post_process_enhanced.py` lines
153-168): `100` for equal or empty words, else
`max 0 (100 * (1 - distance / max_len))`. -/
def confusionSimilarity (w1 w2 : List Char) : ℚ :=
  if w1 = w2 then 100
  else
    let maxLen : ℕ := max w1.length w2.length
    if maxLen = 0 then 100
    else max 0 (100 * (1 - confusionDistance w1 w2 / maxLen))

theorem confusionDistance_nonneg (w1 w2 : List Char) :
    0 ≤ confusionDistance w1 w2 := by
  unfold confusionDistance
  split
  · exact le_refl 0
  · split
    · positivity
    · rw [edFast_eq]; exact edSpec_nonneg w1 w2

theorem confusionDistance_comm (w1 w2 : List Char) :
    confusionDistance w1 w2 = confusionDistance w2 w1 := by
  unfold confusionDistance
  by_cases h : w1 = w2
  · simp [h]
  · have h' : ¬ w2 = w1 := fun hh => h hh.symm
    rw [if_neg h, if_neg h']
    have habs : ((w1.length : ℤ) - w2.length).natAbs =
        ((w2.length : ℤ) - w1.length).natAbs := by omega
    rw [habs, Nat.max_comm]
    split
    · rfl
    · rw [edFast_eq, edFast_eq, edSpec_comm]

theorem confusionSimilarity_self (a : List Char) :
    confusionSimilarity a a = 100 := by
  unfold confusionSimilarity
  rw [if_pos rfl]

theorem confusionSimilarity_comm (a b : List Char) :
    confusionSimilarity a b = confusionSimilarity b a := by
  simp only [confusionSimilarity]
  by_cases h : a = b
  · simp [h]
  · have h' : ¬ b = a := fun hh => h hh.symm
    rw [if_neg h, if_neg h', confusionDistance_comm a b,
      Nat.max_comm a.length b.length]

theorem confusionSimilarity_nonneg (a b : List Char) :
    0 ≤ confusionSimilarity a b := by
  simp only [confusionSimilarity]
  split
  · norm_num
  · split
    · norm_num
    · exact le_max_left 0 _

theorem confusionSimilarity_le_100 (a b : List Char) :
    confusionSimilarity a b ≤ 100 := by
  simp only [confusionSimilarity]
  split
  · norm_num
  · split
    · norm_num
    · rename_i hne hm
      have hmpos : 0 < ((max a.length b.length : ℕ) : ℚ) := by
        have := Nat.pos_of_ne_zero hm
        exact_mod_cast this
      have hd := confusionDistance_nonneg a b
      have hq : 0 ≤ confusionDistance a b / ((max a.length b.length : ℕ) : ℚ) :=
        div_nonneg hd (le_of_lt hmpos)
      have hle : 100 * (1 - confusionDistance a b / ((max a.length b.length : ℕ) : ℚ)) ≤ 100 := by
        linarith
      exact max_le (by norm_num) hle

/-- C4: `confusion_similarity` is reflexive (`similarity(a,a) = 100`),
symmetric, and its value is always clamped to the interval `[0, 100]`. -/
theorem C4_confusionSimilarity_reflexive_symmetric_clamped (a b : List Char) :
    confusionSimilarity a a = 100 ∧
    confusionSimilarity a b = confusionSimilarity b a ∧
    0 ≤ confusionSimilarity a b ∧ confusionSimilarity a b ≤ 100 :=
  ⟨confusionSimilarity_self a, confusionSimilarity_comm a b,
    confusionSimilarity_nonneg a b, confusionSimilarity_le_100 a b⟩

/-- Single-position substitution `word[:i] + replacement + word[i+1:]` used by
`generate_confusion_variants`.  The replacement may be longer than one
character (the `"لا"` entry). -/
def substAt (l : List Char) (i : ℕ) (repl : List Char) : List Char :=
  l.take i ++ repl ++ l.drop (i + 1)

/-- Variants produced at position `i` of the word by one lookup table. -/
def variantsAt (l : List Char) (tbl : Char → List (List Char)) (i : ℕ) :
    List (List Char) :=
  match l.get? i with
  | some c => (tbl c).map (substAt l i)
  | none => []

/-- Order-preserving duplicate removal: the model of inserting into a Python
`set` and listing it, keeping first-insertion order. -/
def dedupKeepFirst (l : List (List Char)) : List (List Char) :=
  l.foldl (fun acc x => if x ∈ acc then acc else acc ++ [x]) []

/-- All strings inserted into the `variants` set by
`generate_confusion_variants` (`post_process_enhanced.py` lines 303-328), in
insertion order: the word itself, then for every position the forward
confusion substitutions, then for every position the reverse
(`OCR_MIGHT_PRODUCE`) substitutions. -/
def allVariants (word : List Char) : List (List Char) :=
  word ::
    ((List.range word.length).flatMap (variantsAt word matrixLookup)
      ++ (List.range word.length).flatMap
        (variantsAt word fun c => ocrMightProduce [c]))

/-- Model of `generate_confusion_variants`: the deduplicated variant set,
truncated to `maxVariants` elements (`list(variants)[:max_variants]`).  The
Python `set` has no specified order; the model fixes insertion order, which
agrees with the code on every property of the underlying set whenever the
truncation does not discard elements. -/
def generateConfusionVariants (word : List Char) (maxVariants : ℕ) :
    List (List Char) :=
  (dedupKeepFirst (allVariants word)).take maxVariants

theorem mem_dedupKeepFirst_aux (l acc : List (List Char)) (x : List Char) :
    (x ∈ l.foldl (fun acc x => if x ∈ acc then acc else acc ++ [x]) acc) ↔
      (x ∈ l ∨ x ∈ acc) := by
  induction l generalizing acc with
  | nil => simp
  | cons y l ih =>
    simp only [List.foldl_cons, ih, List.mem_cons]
    split
    · rename_i hy
      constructor
      · rintro (h | h)
        · exact Or.inl (Or.inr h)
        · exact Or.inr h
      · rintro ((h | h) | h)
        · subst h; exact Or.inr hy
        · exact Or.inl h
        · exact Or.inr h
    · constructor
      · rintro (h | h)
        · exact Or.inl (Or.inr h)
        · rcases List.mem_append.mp h with h | h
          · exact Or.inr h
          · simp only [List.mem_singleton] at h
            exact Or.inl (Or.inl h)
      · rintro ((h | h) | h)
        · subst h
          exact Or.inr (List.mem_append.mpr (Or.inr (by simp)))
        · exact Or.inl h
        · exact Or.inr (List.mem_append.mpr (Or.inl h))

theorem mem_dedupKeepFirst (l : List (List Char)) (x : List Char) :
    x ∈ dedupKeepFirst l ↔ x ∈ l := by
  unfold dedupKeepFirst
  rw [mem_dedupKeepFirst_aux]
  simp

/-- C6 (amended): `generate_confusion_variants` always returns at most
`max_variants` strings; whenever the deduplicated variant set is not larger
than `max_variants` (so the truncation `[:max_variants]` discards nothing),
the result contains the unmodified word and, for every position `i` holding a
character `c` and every replacement listed in `CONFUSION_MATRIX[c]`, the
variant with that replacement substituted at `i`. -/
theorem C6_generateConfusionVariants_contains
    (word : List Char) (maxV : ℕ)
    (h : (dedupKeepFirst (allVariants word)).length ≤ maxV) :
    (generateConfusionVariants word maxV).length ≤ maxV ∧
    word ∈ generateConfusionVariants word maxV ∧
    ∀ i c repl, word.get? i = some c → repl ∈ matrixLookup c →
      substAt word i repl ∈ generateConfusionVariants word maxV := by
  have hfull : generateConfusionVariants word maxV =
      dedupKeepFirst (allVariants word) := by
    unfold generateConfusionVariants
    exact List.take_of_length_le h
  refine ⟨?_, ?_, ?_⟩
  · unfold generateConfusionVariants
    exact List.length_take_le maxV _
  · rw [hfull, mem_dedupKeepFirst]
    exact List.mem_cons_self _ _
  · intro i c repl hget hrepl
    rw [hfull, mem_dedupKeepFirst]
    apply List.mem_cons_of_mem
    apply List.mem_append.mpr
    left
    apply List.mem_flatMap.mpr
    refine ⟨i, ?_, ?_⟩
    · have hlt : i < word.length := by
        rcases List.get?_eq_some.mp hget with ⟨hlt, _⟩
        exact hlt
      exact List.mem_range.mpr hlt
    · unfold variantsAt
      rw [hget]
      exact List.mem_map.mpr ⟨repl, hrepl, rfl⟩

/-- C6 witness: for the one-character word `"ب"` and the default bound `20`
no truncation occurs, and the result contains the word itself and its
forward substitution variant `"پ"`. -/
theorem C6_generateConfusionVariants_contains_witness :
    (dedupKeepFirst (allVariants ['ب'])).length ≤ 20 ∧
    ['ب'] ∈ generateConfusionVariants ['ب'] 20 ∧
    ['پ'] ∈ generateConfusionVariants ['ب'] 20 := by
  refine ⟨by decide, (C6_generateConfusionVariants_contains ['ب'] 20 (by decide)).2.1, ?_⟩
  have h := (C6_generateConfusionVariants_contains ['ب'] 20 (by decide)).2.2
    0 'ب' ['پ'] (by decide) (by decide)
  exact h

/-- C6 counterexample: the claim asserts that for every bound the returned
list contains the unmodified word, but with `max_variants = 0` the truncated
list is empty. -/
theorem C6_generateConfusionVariants_cex :
    ¬ (['ب'] ∈ generateConfusionVariants ['ب'] 0) := by decide

/-- C9 (amended): every character occurring as a key of the confusion matrix
is a member of its own `OCR_MIGHT_PRODUCE` set (the build adds each key to
its own entry). -/
theorem C9_ocrMightProduce_self_for_keys :
    ∀ e ∈ confusionMatrix, [e.1] ∈ ocrMightProduce [e.1] := by decide

/-- C9 witness: the key `'ب'` is mapped to a set containing itself. -/
theorem C9_ocrMightProduce_self_witness :
    (('ب', [['پ'], ['ت'], ['ث'], ['ن'], ['ی']]) ∈ confusionMatrix) ∧
    ['ب'] ∈ ocrMightProduce ['ب'] :=
  ⟨by decide, C9_ocrMightProduce_self_for_keys
    ('ب', [['پ'], ['ت'], ['ث'], ['ن'], ['ی']]) (by decide)⟩

/-- C9 counterexample: the character `'ا'` occurs in the confusion table as a
confusable value (for example under `'ل'`) but is not a key, and
`OCR_MIGHT_PRODUCE['ا']` does not contain `'ا'` itself — the claim's
"as a key or as a confusable value" fails for values that are not keys. -/
theorem C9_ocrMightProduce_cex :
    ['ا'] ∈ confusionMatrix.flatMap (fun e => e.2) ∧
    ¬ (['ا'] ∈ ocrMightProduce ['ا']) := by decide

/-- Word-frequency bonus computed in `find_candidates`
(`post_process_enhanced.py` lines 425-429): the `> 10` branch is tested
before the `> 100` branch. -/
def freqBonus (f : ℕ) : ℚ :=
  if 10 < f then 3 else if 100 < f then 5 else 0

/-- C10: the word-frequency bonus is `3` for frequency above `10` and `0`
otherwise; the `5`-point tier guarded by `> 100` is unreachable because the
`> 10` branch is tested first and subsumes it. -/
theorem C10_freqBonus_five_unreachable (f : ℕ) :
    freqBonus f = (if 10 < f then 3 else 0) ∧ freqBonus f ≠ 5 := by
  unfold freqBonus
  constructor
  · split
    · rfl
    · rename_i h
      have h2 : ¬ (100 < f) := fun hh => h (by omega)
      rw [if_neg h2]
  · split
    · norm_num
    · rename_i h
      have h2 : ¬ (100 < f) := fun hh => h (by omega)
      rw [if_neg h2]
      norm_num

/-- Provenance tag: the value of the `'source'` key of the debug dicts
produced by `find_candidates`. -/
inductive CandSource
  | no_dict
  | in_dict
  | confusion_variant
  | fuzzy
  | no_match
deriving DecidableEq

/-- Model of the heterogeneous debug dicts of `find_candidates` and
`correct_word`: every key that any code path can store is a field, absent
keys are `none`. -/
structure DebugInfo where
  source : CandSource
  original : Option (List Char)
  confusion_sim : Option ℚ
  fuzzy_score : Option ℚ
  confusion_score : Option ℚ
  combined : Option ℚ
  confidence_boost : Option ℚ
  low_conf_positions : Option (List ℕ)
  freq_bonus : Option ℚ
  base_score : Option ℚ
  context_score : Option ℚ
  final_score : Option ℚ
  prev_word : Option (Option (List Char))
  next_word : Option (Option (List Char))
deriving DecidableEq

/-- Debug dict holding only a `'source'` key. -/
def mkInfo (s : CandSource) : DebugInfo :=
  ⟨s, none, none, none, none, none, none, none, none, none, none, none, none,
    none⟩

/-- One entry of a correction log: the dict
`\x7b'original': ..., 'corrected': ..., 'word_confidence': ..., ...info\x7d`
appended by `process_text` / `process_with_confidence`.  The
`word_confidence` key is only present (outer `some`) in the
confidence-carrying path. -/
structure Correction where
  original : List Char
  corrected : List Char
  word_confidence : Option (Option ℚ)
  info : DebugInfo
deriving DecidableEq

/-- State of an `EnhancedPostProcessor` (`post_process_enhanced.py` lines
179-214).  The dictionary set is modelled as a list with set membership; the
`word_freq` Counter as a total function (`.get(w, 0)`); the bigram
`defaultdict(Counter)` as an association list (`in` never inserts).
`fuzzyMatches` models the external fuzzy-matching collaborator: `none` is the
`FUZZY_LIB = None` configuration (import failed), and `some f` makes
`f word limit` stand for `process.extract(word, dictionary, fuzz.ratio,
limit)`, which the repository does not implement itself. -/
structure Processor where
  min_word_length : ℕ
  fuzzy_threshold : ℚ
  confusion_threshold : ℚ
  confidence_threshold : ℚ
  context_weight : ℚ
  dictionary : List (List Char)
  word_freq : List Char → ℕ
  bigrams : List (List Char × List (List Char × ℕ))
  total_bigrams : ℕ
  fuzzyMatches : Option (List Char → ℕ → List (List Char × ℚ))

/-- Python truthiness of an optional string: `None` and the empty string are
falsy. -/
def truthy (o : Option (List Char)) : Option (List Char) :=
  match o with
  | none => none
  | some w => if w.isEmpty then none else some w

/-- Characters of the Arabic block `؀`-`ۿ`, the class kept by the
normalisation regex of `EnhancedPostProcessor._normalize`. -/
def persianChar (c : Char) : Bool :=
  decide (0x600 ≤ c.toNat) && decide (c.toNat ≤ 0x6FF)

/-- Strip leading and trailing non-Arabic-block characters, the effect of
`re.sub` with pattern anchored at both edges. -/
def stripNonPersianEdges (w : List Char) : List Char :=
  ((w.dropWhile fun c => ! persianChar c).reverse.dropWhile
    fun c => ! persianChar c).reverse

/-- Model of `EnhancedPostProcessor._normalize` (lines 268-271): strip the
edges, return the word only when it still reaches the minimum length. -/
def enhNormalize (st : Processor) (w : List Char) : Option (List Char) :=
  let s := stripNonPersianEdges w
  if st.min_word_length ≤ s.length then some s else none

/-- `sum(counter.values())` for an association-list counter. -/
def counterTotal (l : List (List Char × ℕ)) : ℕ :=
  (l.map fun p => p.2).sum

/-- Model of `EnhancedPostProcessor.get_context_score` (lines 273-301).
Each neighbour contributes `min(100, freq * 500)` when its bigram is
observed; the counter `count` increments whenever the corresponding bigram
row exists; missing data yields the neutral `50`. -/
def getContextScore (st : Processor) (prev : Option (List Char))
    (word : List Char) (next : Option (List Char)) : ℚ :=
  if st.total_bigrams = 0 then 50
  else
    let wordNorm := truthy (if word.isEmpty then none else enhNormalize st word)
    let pPart : ℚ × ℕ :=
      match truthy prev with
      | none => (0, 0)
      | some pw =>
        match truthy (enhNormalize st pw) with
        | none => (0, 0)
        | some pn =>
          match st.bigrams.lookup pn with
          | none => (0, 0)
          | some following =>
            match wordNorm with
            | some wn =>
              match following.lookup wn with
              | some f =>
                (min 100 ((f : ℚ) / ((max 1 (counterTotal following) : ℕ) : ℚ) * 500), 1)
              | none => (0, 1)
            | none => (0, 1)
    let nPart : ℚ × ℕ :=
      match truthy next, wordNorm with
      | some nw, some wn =>
        let nextNorm := truthy (enhNormalize st nw)
        match st.bigrams.lookup wn with
        | none => (0, 0)
        | some following =>
          match nextNorm with
          | some nn =>
            match following.lookup nn with
            | some f =>
              (min 100 ((f : ℚ) / ((max 1 (counterTotal following) : ℕ) : ℚ) * 500), 1)
            | none => (0, 1)
          | none => (0, 1)
      | _, _ => (0, 0)
    if pPart.2 + nPart.2 = 0 then 50
    else (pPart.1 + nPart.1) / ((pPart.2 + nPart.2 : ℕ) : ℚ)

/-- Step 1 of `find_candidates` (lines 355-365): confusion variants found in
the dictionary, scored by `confusion_similarity`, kept above the confusion
threshold. -/
def fcVariantCands (st : Processor) (word : List Char) : List (List Char × ℚ × DebugInfo) :=
  (generateConfusionVariants word 20).filterMap fun v =>
    if v ∈ st.dictionary ∧ v ≠ word then
      let score := confusionSimilarity word v
      if st.confusion_threshold ≤ score then
        some (v, score,
          { mkInfo .confusion_variant with
              original := some word, confusion_sim := some score })
      else none
    else none

/-- Step 2 of `find_candidates` (lines 367-396): fuzzy matches re-scored with
`0.4 * fuzzy + 0.6 * confusion similarity`, appended when above threshold and
not already present. -/
def fcWithFuzzy (st : Processor) (word : List Char) (maxCandidates : ℕ)
    (init : List (List Char × ℚ × DebugInfo)) : List (List Char × ℚ × DebugInfo) :=
  match st.fuzzyMatches with
  | none => init
  | some fm =>
    (fm word (maxCandidates * 2)).foldl
      (fun acc m =>
        if m.1 = word then acc
        else
          let confScore := confusionSimilarity word m.1
          let combined := 4/10 * m.2 + 6/10 * confScore
          if st.confusion_threshold ≤ combined ∧ (acc.all fun c => c.1 ≠ m.1) then
            acc ++ [(m.1, combined,
              { mkInfo .fuzzy with
                  fuzzy_score := some m.2, confusion_score := some confScore,
                  combined := some combined })]
          else acc)
      init

/-- Indices whose character confidence falls below the confidence
threshold. -/
def lowConfPositions (st : Processor) (confs : List ℚ) : List ℕ :=
  confs.enum.filterMap fun p =>
    if p.2 < st.confidence_threshold then some p.1 else none

/-- Positions below `len(word)` where word and candidate disagree. -/
def diffPositions (word cand : List Char) : List ℕ :=
  (List.range word.length).filter fun j =>
    j < cand.length ∧ word.get? j ≠ cand.get? j

/-- Step 3 of `find_candidates` (lines 398-417): boost same-length candidates
whose differences overlap low-confidence positions by `5` per overlap,
capped at `100`. -/
def fcBoost (st : Processor) (word : List Char) (charConf : Option (List ℚ))
    (cands : List (List Char × ℚ × DebugInfo)) : List (List Char × ℚ × DebugInfo) :=
  match charConf with
  | none => cands
  | some confs =>
    if ¬ confs.isEmpty ∧ confs.length = word.length then
      let low := lowConfPositions st confs
      cands.map fun c =>
        if c.1.length = word.length then
          let overlap := ((diffPositions word c.1).filter fun j => j ∈ low).length
          if 0 < overlap then
            (c.1, min 100 (c.2.1 + 5 * overlap),
              { c.2.2 with
                  confidence_boost := some (5 * overlap),
                  low_conf_positions := some low })
          else c
        else c
    else cands

/-- The candidate list of `find_candidates` just before sorting. -/
def fcRawCandidates (st : Processor) (word : List Char)
    (charConf : Option (List ℚ)) (maxCandidates : ℕ) : List (List Char × ℚ × DebugInfo) :=
  fcBoost st word charConf (fcWithFuzzy st word maxCandidates (fcVariantCands st word))

/-- Descending order on the score component, the key
`lambda x: -x[1]` of the Python sort. -/
def scoreGe (a b : List Char × ℚ × DebugInfo) : Prop := b.2.1 ≤ a.2.1

instance : DecidableRel scoreGe := fun a b =>
  inferInstanceAs (Decidable (b.2.1 ≤ a.2.1))

instance : IsTotal (List Char × ℚ × DebugInfo) scoreGe :=
  ⟨fun a b => (le_total b.2.1 a.2.1).imp (fun h => h) fun h => h⟩

instance : IsTrans (List Char × ℚ × DebugInfo) scoreGe :=
  ⟨fun _ _ _ h1 h2 => le_trans h2 h1⟩

/-- The candidate list after the stable sort on descending score
(`candidates.sort(key=lambda x: -x[1])`).  Python's stable sort is modelled
by stable insertion sort: stability and sortedness determine the result
uniquely, so this agrees with the interpreter's Timsort. -/
def fcSorted (st : Processor) (word : List Char) (charConf : Option (List ℚ))
    (maxCandidates : ℕ) : List (List Char × ℚ × DebugInfo) :=
  List.insertionSort scoreGe (fcRawCandidates st word charConf maxCandidates)

/-- The word-frequency bonus application of `find_candidates`
(lines 423-432), performed after the sort. -/
def bonusApply (st : Processor) (c : List Char × ℚ × DebugInfo) : List Char × ℚ × DebugInfo :=
  let fb := freqBonus (st.word_freq c.1)
  (c.1, min 100 (c.2.1 + fb), { c.2.2 with freq_bonus := some fb })

/-- Model of `EnhancedPostProcessor.find_candidates` (lines 330-437). -/
def findCandidates (st : Processor) (word : List Char)
    (charConf : Option (List ℚ)) (maxCandidates : ℕ) : List (List Char × ℚ × DebugInfo) :=
  if st.dictionary.isEmpty then [(word, 100, mkInfo .no_dict)]
  else if word ∈ st.dictionary then [(word, 100, mkInfo .in_dict)]
  else
    let final :=
      ((fcSorted st word charConf maxCandidates).take maxCandidates).map
        (bonusApply st)
    if final.isEmpty then [(word, 0, mkInfo .no_match)] else final

/-- Model of `EnhancedPostProcessor.correct_word` (lines 439-504): early
accept for short or in-dictionary words, context-weighted re-scoring of the
candidates, threshold relaxation under low average confidence, and the final
acceptance test. -/
def correctWord (st : Processor) (word : List Char)
    (charConf : Option (List ℚ)) (prev next : Option (List Char)) :
    List Char × Bool × Option DebugInfo :=
  if word.length < st.min_word_length then (word, false, none)
  else if word ∈ st.dictionary then (word, false, none)
  else
    let candidates := findCandidates st word charConf 10
    match candidates with
    | [] => (word, false, none)
    | c0 :: _ =>
      if c0.2.1 = 0 then (word, false, none)
      else
        let best := candidates.foldl
          (fun best c =>
            let contextScore := getContextScore st prev c.1 next
            let finalScore := (1 - st.context_weight) * c.2.1 +
              st.context_weight * contextScore
            if best.2.1 < finalScore then
              (c.1, finalScore, some
                { c.2.2 with
                    base_score := some c.2.1,
                    context_score := some contextScore,
                    final_score := some finalScore,
                    prev_word := some prev,
                    next_word := some next })
            else best)
          (word, 0, (none : Option DebugInfo))
        let threshold :=
          match charConf with
          | some confs =>
            if ¬ confs.isEmpty ∧
                confs.sum / (confs.length : ℚ) < st.confidence_threshold then
              max 50 (st.confusion_threshold - 10)
            else st.confusion_threshold
          | none => st.confusion_threshold
        let wasCorrected := best.1 ≠ word ∧ threshold ≤ best.2.1
        (best.1, wasCorrected, if wasCorrected then best.2.2 else none)

/-- Accumulator version of Python `str.split()`: maximal runs of
non-whitespace characters, no empty tokens. -/
def splitWordsAux : List Char → List Char → List (List Char)
  | [], acc => if acc.isEmpty then [] else [acc.reverse]
  | c :: cs, acc =>
    if c.isWhitespace then
      if acc.isEmpty then splitWordsAux cs []
      else acc.reverse :: splitWordsAux cs []
    else splitWordsAux cs (c :: acc)

/-- Python `text.split()`. -/
def splitWords (text : List Char) : List (List Char) :=
  splitWordsAux text []

/-- `words[i-1] if i > 0 else None`. -/
def prevAt (ws : List (List Char)) (i : ℕ) : Option (List Char) :=
  if 0 < i then ws.get? (i - 1) else none

/-- `words[i+1] if i < len(words) - 1 else None`. -/
def nextAt (ws : List (List Char)) (i : ℕ) : Option (List Char) :=
  if i + 1 < ws.length then ws.get? (i + 1) else none

/-- Model of `EnhancedPostProcessor.process_text` (lines 506-533): correct
each word against its original neighbours, join with single spaces, log the
accepted corrections in order. -/
def processText (st : Processor) (text : List Char) :
    List Char × List Correction :=
  let words := splitWords text
  let results := words.enum.map fun p =>
    (p.2, correctWord st p.2 none (prevAt words p.1) (nextAt words p.1))
  (List.intercalate [' '] (results.map fun r => r.2.1),
    results.filterMap fun r =>
      if r.2.2.1 then
        r.2.2.2.map fun inf =>
          { original := r.1, corrected := r.2.1, word_confidence := none,
            info := inf }
      else none)

/-- Model of `EnhancedPostProcessor.process_with_confidence` (lines 535-581):
on a count mismatch between confidence arrays and words it falls back to
`process_text`; otherwise it corrects each word with its confidence
array. -/
def processWithConfidence (st : Processor) (text : List Char)
    (charConfs : List (List ℚ)) : List Char × List Correction :=
  let words := splitWords text
  if charConfs.length ≠ words.length then processText st text
  else
    let results := (words.zip charConfs).enum.map fun p =>
      (p.2.1, p.2.2,
        correctWord st p.2.1 (some p.2.2) (prevAt words p.1) (nextAt words p.1))
    (List.intercalate [' '] (results.map fun r => r.2.2.1),
      results.filterMap fun r =>
        if r.2.2.2.1 then
          r.2.2.2.2.map fun inf =>
            { original := r.1, corrected := r.2.2.1,
              word_confidence := some (if r.2.1.isEmpty then none
                else some (r.2.1.sum / (r.2.1.length : ℚ))),
              info := inf }
        else none)

/-- Default-parameter processor state (the `__init__` defaults of
`EnhancedPostProcessor`) over a given dictionary, with no context model and
no fuzzy library. -/
def defaultProc (dict : List (List Char)) : Processor :=
  { min_word_length := 2, fuzzy_threshold := 70, confusion_threshold := 65,
    confidence_threshold := 8/10, context_weight := 2/10,
    dictionary := dict, word_freq := fun _ => 0, bigrams := [],
    total_bigrams := 0, fuzzyMatches := none }

theorem correctWord_of_mem (st : Processor) (w : List Char)
    (cc : Option (List ℚ)) (p n : Option (List Char))
    (hw : w ∈ st.dictionary) :
    correctWord st w cc p n = (w, false, none) := by
  simp [correctWord, hw]

theorem correctWord_nil_dict (st : Processor) (w : List Char)
    (cc : Option (List ℚ)) (p n : Option (List Char))
    (h : st.dictionary = []) :
    correctWord st w cc p n = (w, false, none) := by
  have hdict : st.dictionary.isEmpty = true := by rw [h]; rfl
  have hmem : ¬ w ∈ st.dictionary := by rw [h]; exact List.not_mem_nil w
  have hcand : findCandidates st w cc 10 = [(w, 100, mkInfo .no_dict)] := by
    unfold findCandidates
    rw [if_pos hdict]
  simp only [correctWord, hcand, hmem, if_false]
  split
  · rfl
  · simp only [List.foldl_cons, List.foldl_nil]
    by_cases hc : 0 < (1 - st.context_weight) * 100 +
        st.context_weight * getContextScore st p w n
    · simp [hc]
    · simp [hc]

/-- C2 (amended): with an empty dictionary `correct_word` returns the triple
`(word, False, None)` for every input word — the third component is `None`,
not the debug dict, because the `'no_dict'` dict produced by
`find_candidates` is dropped when no correction is accepted.  Totality of
the model witnesses that no exception is raised. -/
theorem C2_correctWord_empty_dictionary (st : Processor) (w : List Char)
    (cc : Option (List ℚ)) (p n : Option (List Char))
    (h : st.dictionary = []) :
    correctWord st w cc p n = (w, false, none) :=
  correctWord_nil_dict st w cc p n h

/-- C2 witness: the empty-dictionary default processor on a concrete word. -/
theorem C2_correctWord_empty_dictionary_witness :
    ((defaultProc []).dictionary = []) ∧
    correctWord (defaultProc []) ['x', 'y'] none none none =
      (['x', 'y'], false, none) :=
  ⟨rfl, C2_correctWord_empty_dictionary (defaultProc []) ['x', 'y'] none none
    none rfl⟩

/-- C2 counterexample: the claim asserts the returned debug component equals
the dict `'source' = 'no_dict'`, but `correct_word` returns `None` there. -/
theorem C2_correctWord_cex :
    correctWord (defaultProc []) ['a', 'b'] none none none ≠
      (['a', 'b'], false, some (mkInfo .no_dict)) := by
  rw [correctWord_nil_dict (defaultProc []) ['a', 'b'] none none none rfl]
  simp

/-- C1 (amended): when every whitespace-separated word of the text is in the
dictionary, `process_text` accepts each word unchanged and reports zero
corrections; the returned text is the words re-joined with single spaces
(equal to the input exactly when the input is already single-space
separated). -/
theorem C1_processText_all_in_dictionary (st : Processor) (text : List Char)
    (h : ∀ w ∈ splitWords text, w ∈ st.dictionary) :
    processText st text = (List.intercalate [' '] (splitWords text), []) := by
  simp only [processText]
  have hres : ∀ p ∈ (splitWords text).enum,
      correctWord st p.2 none (prevAt (splitWords text) p.1)
        (nextAt (splitWords text) p.1) = (p.2, false, none) := by
    intro p hp
    obtain ⟨i, w⟩ := p
    have hmem := List.mem_enum hp
    apply correctWord_of_mem
    apply h
    rcases hmem with ⟨hlt, heq⟩
    rw [heq]
    exact List.getElem_mem hlt
  congr 1
  · rw [List.map_map]
    have heq : ((splitWords text).enum.map
        (((fun r => r.2.1) :
            (List Char × (List Char × Bool × Option DebugInfo)) → List Char) ∘
          fun p =>
          (p.2, correctWord st p.2 none (prevAt (splitWords text) p.1)
            (nextAt (splitWords text) p.1)))) =
        (splitWords text).enum.map Prod.snd := by
      apply List.map_congr_left
      intro p hp
      simp only [Function.comp]
      rw [hres p hp]
    rw [heq, List.enum_map_snd]
  · rw [List.filterMap_map]
    apply List.filterMap_eq_nil_iff.mpr
    intro p hp
    simp only [Function.comp]
    rw [hres p hp]
    simp

/-- C1 witness: a two-word dictionary text in normalized spacing comes back
verbatim with an empty correction log. -/
theorem C1_processText_all_in_dictionary_witness :
    (∀ w ∈ splitWords ['a', 'b', ' ', 'c', 'd'],
      w ∈ (defaultProc [['a','b'], ['c','d']]).dictionary) ∧
    processText (defaultProc [['a','b'], ['c','d']]) ['a', 'b', ' ', 'c', 'd'] =
      (['a', 'b', ' ', 'c', 'd'], []) := by
  refine ⟨by decide, ?_⟩
  rw [C1_processText_all_in_dictionary (defaultProc [['a','b'], ['c','d']])
    ['a', 'b', ' ', 'c', 'd'] (by decide)]
  decide

/-- C1 counterexample: with a doubled separator space every word is still in
the dictionary, but the returned text is single-spaced, hence not equal to
the input text. -/
theorem C1_processText_cex :
    (∀ w ∈ splitWords ['a', 'b', ' ', ' ', 'c', 'd'],
      w ∈ (defaultProc [['a','b'], ['c','d']]).dictionary) ∧
    processText (defaultProc [['a','b'], ['c','d']]) ['a', 'b', ' ', ' ', 'c', 'd'] ≠
      (['a', 'b', ' ', ' ', 'c', 'd'], []) := by
  constructor
  · decide
  · decide

/-- C7: whenever the number of per-word confidence arrays differs from the
number of whitespace-separated words, `process_with_confidence` returns
exactly the result of `process_text`. -/
theorem C7_processWithConfidence_fallback (st : Processor) (text : List Char)
    (confs : List (List ℚ)) (h : confs.length ≠ (splitWords text).length) :
    processWithConfidence st text confs = processText st text := by
  simp only [processWithConfidence]
  rw [if_pos h]

/-- C7 witness: zero confidence arrays against a one-word text. -/
theorem C7_processWithConfidence_fallback_witness :
    (([] : List (List ℚ)).length ≠ (splitWords ['a', 'b']).length) ∧
    processWithConfidence (defaultProc []) ['a', 'b'] [] =
      processText (defaultProc []) ['a', 'b'] :=
  ⟨by decide, C7_processWithConfidence_fallback (defaultProc []) ['a', 'b'] []
    (by decide)⟩

/-- State of a `ContextAwarePostProcessor` (`post_process_context.py`):
bigram and trigram tables with their totals.  Trigram keys are the combined
strings `w1 + "|" + w2`. -/
structure CtxProcessor where
  min_word_length : ℕ
  bigrams : List (List Char × List (List Char × ℕ))
  trigrams : List (List Char × List (List Char × ℕ))
  total_bigrams : ℕ
  total_trigrams : ℕ

/-- Character class `[\w؀-ۿ]` of the normalisation regex of
`ContextAwarePostProcessor._normalize`; the `\w` class is modelled over the
ASCII and Arabic-block alphabets the pipeline operates on. -/
def ctxWordChar (c : Char) : Bool :=
  c.isAlphanum || decide (c = '_') || persianChar c

/-- Strip characters outside the class from both edges. -/
def ctxStrip (w : List Char) : List Char :=
  ((w.dropWhile fun c => ! ctxWordChar c).reverse.dropWhile
    fun c => ! ctxWordChar c).reverse

/-- Model of `ContextAwarePostProcessor._normalize` (lines 129-133). -/
def ctxNormalize (st : CtxProcessor) (w : List Char) : Option (List Char) :=
  let s := ctxStrip w
  if st.min_word_length ≤ s.length then some s else none

/-- Model of `ContextAwarePostProcessor.get_bigram_score` (lines 135-184):
bigram contributions `min(100, freq * 500)` for both neighbours, a trigram
contribution `min(100, freq * 800)`, averaged over the incremented counter;
`50` when the model is empty or nothing contributes. -/
def getBigramScore (st : CtxProcessor) (prev : Option (List Char))
    (word : List Char) (next : Option (List Char))
    (prevPrev : Option (List Char)) : ℚ :=
  if st.total_bigrams = 0 then 50
  else
    let wordNorm := truthy (if word.isEmpty then none else ctxNormalize st word)
    let pPart : ℚ × ℕ :=
      match truthy prev with
      | none => (0, 0)
      | some pw =>
        match truthy (ctxNormalize st pw) with
        | none => (0, 0)
        | some pn =>
          match st.bigrams.lookup pn with
          | none => (0, 0)
          | some following =>
            match wordNorm with
            | some wn =>
              match following.lookup wn with
              | some f =>
                (min 100 ((f : ℚ) / ((max 1 (counterTotal following) : ℕ) : ℚ) * 500), 1)
              | none => (0, 1)
            | none => (0, 1)
    let nPart : ℚ × ℕ :=
      match truthy next, wordNorm with
      | some nw, some wn =>
        let nextNorm := truthy (ctxNormalize st nw)
        match st.bigrams.lookup wn with
        | none => (0, 0)
        | some following =>
          match nextNorm with
          | some nn =>
            match following.lookup nn with
            | some f =>
              (min 100 ((f : ℚ) / ((max 1 (counterTotal following) : ℕ) : ℚ) * 500), 1)
            | none => (0, 1)
          | none => (0, 1)
      | _, _ => (0, 0)
    let tPart : ℚ × ℕ :=
      if st.total_trigrams ≠ 0 then
        match truthy prevPrev, truthy prev with
        | some ppw, some pw =>
          match truthy (ctxNormalize st ppw), truthy (ctxNormalize st pw) with
          | some ppn, some pn =>
            match st.trigrams.lookup (ppn ++ '|' :: pn) with
            | none => (0, 0)
            | some following =>
              match wordNorm with
              | some wn =>
                match following.lookup wn with
                | some f =>
                  (min 100 ((f : ℚ) / ((max 1 (counterTotal following) : ℕ) : ℚ) * 800), 1)
                | none => (0, 0)
              | none => (0, 0)
          | _, _ => (0, 0)
        | _, _ => (0, 0)
      else (0, 0)
    if pPart.2 + nPart.2 + tPart.2 = 0 then 50
    else (pPart.1 + nPart.1 + tPart.1) / ((pPart.2 + nPart.2 + tPart.2 : ℕ) : ℚ)

/-- C8: with an empty context model (zero total bigrams), or with both
neighbour words absent, both context scorers return exactly the neutral
value `50` — never a penalising value. -/
theorem C8_context_score_neutral (st : Processor) (cst : CtxProcessor)
    (word : List Char) (prev next prevPrev : Option (List Char))
    (h1 : st.total_bigrams = 0 ∨ (prev = none ∧ next = none))
    (h2 : cst.total_bigrams = 0 ∨ (prev = none ∧ next = none)) :
    getContextScore st prev word next = 50 ∧
    getBigramScore cst prev word next prevPrev = 50 := by
  constructor
  · rcases h1 with h1 | ⟨hp, hn⟩
    · simp [getContextScore, h1]
    · subst hp; subst hn
      by_cases ht : st.total_bigrams = 0 <;> simp [getContextScore, truthy, ht]
  · rcases h2 with h2 | ⟨hp, hn⟩
    · simp [getBigramScore, h2]
    · subst hp; subst hn
      by_cases ht : cst.total_bigrams = 0 <;>
        simp [getBigramScore, truthy, ht]

/-- C8 witness: empty models and absent neighbours on a concrete word. -/
theorem C8_context_score_neutral_witness :
    ((defaultProc []).total_bigrams = 0 ∨
      ((none : Option (List Char)) = none ∧ (none : Option (List Char)) = none)) ∧
    getContextScore (defaultProc []) none ['ا', 'ب'] none = 50 ∧
    getBigramScore ⟨2, [], [], 0, 0⟩ none ['ا', 'ب'] none none = 50 := by
  refine ⟨Or.inl rfl, ?_⟩
  exact C8_context_score_neutral (defaultProc []) ⟨2, [], [], 0, 0⟩ ['ا', 'ب']
    none none none (Or.inl rfl) (Or.inl rfl)
/-- C5 counterexample word: twenty-two padding characters, then `'د'` and
`'ل'`. -/
def cexWord : List Char := List.replicate 22 'a' ++ ['د', 'ل']

/-- Dictionary variant of `cexWord` with the substitution `'د' → 'ذ'`. -/
def cexSub : List Char := List.replicate 22 'a' ++ ['ذ', 'ل']

/-- Dictionary variant of `cexWord` with the substitution `'ل' → "لا"`. -/
def cexLa : List Char := List.replicate 22 'a' ++ ['د', 'ل', 'ا']

/-- Processor state for the C5 counterexample: both variants in the
dictionary, the longer variant frequent in the corpus. -/
def cexProc : Processor :=
  { defaultProc [cexSub, cexLa] with
      word_freq := fun w => if w = cexLa then 11 else 0 }

theorem cex_dist_sub : confusionDistance cexWord cexSub = 3/10 := by
  have hne : cexWord ≠ cexSub := by decide
  have hguard : ¬ 3 < ((cexWord.length : ℤ) - cexSub.length).natAbs := by decide
  unfold confusionDistance
  rw [if_neg hne, if_neg hguard, edFast_eq]
  have h0 : edSpec ([] : List Char) [] = 0 := by
    rw [edSpec_nil_left]; rfl
  have hscll : subCost 'ل' 'ل' = 0 := by
    unfold subCost; rw [if_pos rfl]
  have hll : edSpec ['ل'] ['ل'] = 0 := by
    refine le_antisymm ?_ (edSpec_nonneg _ _)
    calc edSpec ['ل'] ['ل'] ≤ edSpec [] [] + subCost 'ل' 'ل' := by
          rw [edSpec_cons_cons]
          exact le_trans (min_le_right _ _) (min_le_right _ _)
      _ = 0 := by rw [h0, hscll]; norm_num
  have hsc : subCost 'د' 'ذ' = 3/10 := by
    unfold subCost
    rw [if_neg (by decide), if_pos (by decide)]
  refine le_antisymm ?_ (edSpec_ne_lower _ _ hne)
  have hpeel : edSpec cexWord cexSub ≤ edSpec ['د', 'ل'] ['ذ', 'ل'] :=
    edSpec_append_le (List.replicate 22 'a') ['د', 'ل'] ['ذ', 'ل']
  refine le_trans hpeel ?_
  calc edSpec ['د', 'ل'] ['ذ', 'ل'] ≤ edSpec ['ل'] ['ل'] + subCost 'د' 'ذ' := by
        rw [edSpec_cons_cons]
        exact le_trans (min_le_right _ _) (min_le_right _ _)
    _ = 3/10 := by rw [hll, hsc]; norm_num

theorem cex_dist_la : confusionDistance cexWord cexLa = 1 := by
  have hne : cexWord ≠ cexLa := by decide
  have hguard : ¬ 3 < ((cexWord.length : ℤ) - cexLa.length).natAbs := by decide
  unfold confusionDistance
  rw [if_neg hne, if_neg hguard, edFast_eq]
  have hupper : edSpec cexWord cexLa ≤ 1 := by
    have hw : cexWord = (List.replicate 22 'a' ++ ['د', 'ل']) ++ [] := by
      simp [cexWord]
    have hl : cexLa = (List.replicate 22 'a' ++ ['د', 'ل']) ++ ['ا'] := by
      simp [cexLa]
    rw [hw, hl]
    refine le_trans (edSpec_append_le _ _ _) ?_
    rw [edSpec_nil_left]
    norm_num
  have hlower : (1:ℚ) ≤ edSpec cexWord cexLa := by
    have h := edSpec_length_lower cexLa cexWord
    have hlen : ((cexLa.length : ℚ) - cexWord.length) = 1 := by
      simp [cexLa, cexWord]
      norm_num
    rw [hlen] at h
    rw [edSpec_comm]
    exact h
  exact le_antisymm hupper hlower

theorem cex_sim_sub : confusionSimilarity cexWord cexSub = 395/4 := by
  simp only [confusionSimilarity]
  rw [if_neg (show ¬ cexWord = cexSub from by decide)]
  have hlen : max cexWord.length cexSub.length = 24 := by decide
  rw [hlen, if_neg (by norm_num), cex_dist_sub]
  rw [max_eq_right (by norm_num)]
  norm_num

theorem cex_sim_la : confusionSimilarity cexWord cexLa = 96 := by
  simp only [confusionSimilarity]
  rw [if_neg (show ¬ cexWord = cexLa from by decide)]
  have hlen : max cexWord.length cexLa.length = 25 := by decide
  rw [hlen, if_neg (by norm_num), cex_dist_la]
  rw [max_eq_right (by norm_num)]
  norm_num
def cexVarA : List Char := List.replicate 22 'a' ++ ['د', 'ا']

theorem cex_variants : generateConfusionVariants cexWord 20 =
    [cexWord, cexSub, cexVarA, cexLa] := by decide

theorem cex_variantCands : fcVariantCands cexProc cexWord =
    [(cexSub, 395/4,
        { mkInfo .confusion_variant with
            original := some cexWord, confusion_sim := some (395/4) }),
      (cexLa, 96,
        { mkInfo .confusion_variant with
            original := some cexWord, confusion_sim := some 96 })] := by
  unfold fcVariantCands
  rw [cex_variants]
  rw [List.filterMap_cons, List.filterMap_cons, List.filterMap_cons,
    List.filterMap_cons, List.filterMap_nil]
  rw [if_neg (show ¬ (cexWord ∈ cexProc.dictionary ∧ cexWord ≠ cexWord) from
    by decide)]
  rw [if_neg (show ¬ (cexVarA ∈ cexProc.dictionary ∧ cexVarA ≠ cexWord) from
    by decide)]
  rw [if_pos (show cexSub ∈ cexProc.dictionary ∧ cexSub ≠ cexWord from
    by decide)]
  rw [if_pos (show cexLa ∈ cexProc.dictionary ∧ cexLa ≠ cexWord from
    by decide)]
  simp only [cex_sim_sub, cex_sim_la]
  rw [if_pos (show cexProc.confusion_threshold ≤ 395/4 from by
    show (65:ℚ) ≤ 395/4
    norm_num)]
  rw [if_pos (show cexProc.confusion_threshold ≤ 96 from by
    show (65:ℚ) ≤ 96
    norm_num)]
theorem cex_findCandidates : findCandidates cexProc cexWord none 10 =
    [(cexSub, 395/4,
        { mkInfo .confusion_variant with
            original := some cexWord, confusion_sim := some (395/4),
            freq_bonus := some 0 }),
      (cexLa, 99,
        { mkInfo .confusion_variant with
            original := some cexWord, confusion_sim := some 96,
            freq_bonus := some 3 })] := by
  have hfuzzy : cexProc.fuzzyMatches = none := rfl
  have hraw : fcRawCandidates cexProc cexWord none 10 =
      [(cexSub, 395/4,
          { mkInfo .confusion_variant with
              original := some cexWord, confusion_sim := some (395/4) }),
        (cexLa, 96,
          { mkInfo .confusion_variant with
              original := some cexWord, confusion_sim := some 96 })] := by
    unfold fcRawCandidates fcBoost fcWithFuzzy
    rw [hfuzzy, cex_variantCands]
  have hsorted : fcSorted cexProc cexWord none 10 =
      [(cexSub, 395/4,
          { mkInfo .confusion_variant with
              original := some cexWord, confusion_sim := some (395/4) }),
        (cexLa, 96,
          { mkInfo .confusion_variant with
              original := some cexWord, confusion_sim := some 96 })] := by
    unfold fcSorted
    rw [hraw]
    simp only [List.insertionSort, List.orderedInsert]
    rw [if_pos (show scoreGe _ _ from by
      show (96:ℚ) ≤ 395/4
      norm_num)]
  unfold findCandidates
  rw [if_neg (show ¬ cexProc.dictionary.isEmpty = true from by decide),
    if_neg (show ¬ cexWord ∈ cexProc.dictionary from by decide)]
  rw [hsorted]
  simp only [List.take, bonusApply, List.map_cons, List.map_nil]
  have hf1 : cexProc.word_freq cexSub = 0 := by
    show (if cexSub = cexLa then 11 else 0) = 0
    rw [if_neg (by decide)]
  have hf2 : cexProc.word_freq cexLa = 11 := by
    show (if cexLa = cexLa then 11 else 0) = 11
    rw [if_pos rfl]
  rw [hf1, hf2]
  have hb1 : freqBonus 0 = 0 := by norm_num [freqBonus]
  have hb2 : freqBonus 11 = 3 := by norm_num [freqBonus]
  rw [hb1, hb2]
  have hm1 : min (100:ℚ) (395/4 + 0) = 395/4 := by norm_num
  have hm2 : min (100:ℚ) (96 + 3) = 99 := by norm_num
  rw [hm1, hm2]
  simp

/-- C5 counterexample: at this concrete state the frequency bonus, added
after the sort, lifts the second candidate above the first, so the returned
list is not sorted in descending order of its final scores. -/
theorem C5_findCandidates_cex :
    ¬ List.Sorted scoreGe (findCandidates cexProc cexWord none 10) := by
  rw [cex_findCandidates]
  intro hs
  have h := (List.sorted_cons.mp hs).1 _ (List.mem_cons_self _ _)
  have : (99:ℚ) ≤ 395/4 := h
  norm_num at this
/-- C5 (amended): `find_candidates` returns at most `max_candidates` entries
(for a positive cap); the list it truncates and awards the frequency bonus
to is sorted in descending order of the pre-bonus score (the score after the
confidence boost but before the frequency bonus, the key of the Python
sort); and when no candidate survives the thresholds the result is exactly
`[(word, 0)]` with source `'no_match'`.  The final scores themselves need
not be descending: the bonus is added after the sort. -/
theorem C5_findCandidates_sorted_capped (st : Processor) (word : List Char)
    (cc : Option (List ℚ)) (maxC : ℕ) (h : 1 ≤ maxC) :
    (findCandidates st word cc maxC).length ≤ maxC ∧
    List.Sorted scoreGe (fcSorted st word cc maxC) ∧
    (st.dictionary.isEmpty = false → word ∉ st.dictionary →
      fcSorted st word cc maxC ≠ [] →
      findCandidates st word cc maxC =
        ((fcSorted st word cc maxC).take maxC).map (bonusApply st)) ∧
    (st.dictionary.isEmpty = false → word ∉ st.dictionary →
      fcSorted st word cc maxC = [] →
      findCandidates st word cc maxC = [(word, 0, mkInfo .no_match)]) := by
  refine ⟨?_, ?_, ?_, ?_⟩
  · unfold findCandidates
    split
    · simpa using h
    · split
      · simpa using h
      · dsimp only
        split
        · simpa using h
        · rw [List.length_map]
          exact le_trans (List.length_take_le maxC _) (le_refl maxC)
  · unfold fcSorted
    exact List.sorted_insertionSort scoreGe _
  · intro hde hmem hne
    unfold findCandidates
    rw [if_neg (by rw [hde]; exact Bool.false_ne_true), if_neg hmem]
    have htake : (fcSorted st word cc maxC).take maxC ≠ [] := by
      intro hx
      rcases List.take_eq_nil_iff.mp hx with hx | hx
      · omega
      · exact hne hx
    have hmapne : ((fcSorted st word cc maxC).take maxC).map (bonusApply st) ≠ [] := by
      intro hx
      exact htake (List.map_eq_nil_iff.mp hx)
    rw [if_neg (by
      intro hx
      exact hmapne (List.isEmpty_iff.mp hx))]
  · intro hde hmem hnil
    unfold findCandidates
    rw [if_neg (by rw [hde]; exact Bool.false_ne_true), if_neg hmem]
    rw [hnil]
    simp

/-- C5 witness: a positive cap, a nonempty dictionary, and a word with no
surviving candidate exercise both the cap and the `[(word, 0)]` fallback. -/
theorem C5_findCandidates_sorted_capped_witness :
    (1 ≤ 10) ∧
    (findCandidates (defaultProc [['x','y','z']]) ['q','r'] none 10).length ≤ 10 ∧
    findCandidates (defaultProc [['x','y','z']]) ['q','r'] none 10 =
      [(['q','r'], 0, mkInfo .no_match)] := by
  have hthm := C5_findCandidates_sorted_capped (defaultProc [['x','y','z']])
    ['q','r'] none 10 (by norm_num)
  exact ⟨by norm_num, hthm.1, hthm.2.2.2 (by decide) (by decide) (by decide)⟩

/-- Mutable n-gram state of a `CorpusProcessor` (`build_corpus_model.py`
lines 27-35): the `Counter` and `defaultdict(Counter)` tables as total count
functions (missing keys count `0`), plus the running totals.  Trigram keys
are the combined strings `w1 + "|" + w2`. -/
structure CorpusState where
  word_freq : String → ℕ
  bigrams : String → String → ℕ
  trigrams : String → String → ℕ
  total_words : ℕ
  total_bigrams : ℕ
  total_trigrams : ℕ

/-- A loaded model snapshot, the pickled dict read by `merge_with_existing`:
plain dicts modelled as association lists (Python dict keys are unique — the
`Nodup` hypotheses below), plus the stored totals. -/
structure ModelData where
  word_freq : List (String × ℕ)
  bigrams : List (String × List (String × ℕ))
  trigrams : List (String × List (String × ℕ))
  total_words : ℕ
  total_bigrams : ℕ
  total_trigrams : ℕ

/-- The empty model snapshot. -/
def emptyModelData : ModelData := ⟨[], [], [], 0, 0, 0⟩

/-- `self.word_freq[word] += freq; self.total_words += freq` over the items
of the loaded `word_freq` dict (`build_corpus_model.py` lines 170-173). -/
def mergeWordFreq (st : CorpusState) (l : List (String × ℕ)) : CorpusState :=
  l.foldl
    (fun s p =>
      { s with
          word_freq := fun w =>
            if w = p.1 then s.word_freq w + p.2 else s.word_freq w,
          total_words := s.total_words + p.2 })
    st

/-- Inner loop of the bigram merge: add the counts of one `following`
counter under the fixed first word `a`. -/
def mergeBigramsRow (a : String) (st : CorpusState) (l : List (String × ℕ)) :
    CorpusState :=
  l.foldl
    (fun s p =>
      { s with
          bigrams := fun w1 w2 =>
            if w1 = a ∧ w2 = p.1 then s.bigrams w1 w2 + p.2
            else s.bigrams w1 w2,
          total_bigrams := s.total_bigrams + p.2 })
    st

/-- `self.bigrams[w1][w2] += count; self.total_bigrams += count` over the
loaded bigram dict (`build_corpus_model.py` lines 175-179). -/
def mergeBigrams (st : CorpusState)
    (l : List (String × List (String × ℕ))) : CorpusState :=
  l.foldl (fun s q => mergeBigramsRow q.1 s q.2) st

/-- Inner loop of the trigram merge under the fixed combined key `a`. -/
def mergeTrigramsRow (a : String) (st : CorpusState) (l : List (String × ℕ)) :
    CorpusState :=
  l.foldl
    (fun s p =>
      { s with
          trigrams := fun k w =>
            if k = a ∧ w = p.1 then s.trigrams k w + p.2
            else s.trigrams k w,
          total_trigrams := s.total_trigrams + p.2 })
    st

/-- `self.trigrams[key][w3] += count; self.total_trigrams += count` over the
loaded trigram dict (`build_corpus_model.py` lines 181-185). -/
def mergeTrigrams (st : CorpusState)
    (l : List (String × List (String × ℕ))) : CorpusState :=
  l.foldl (fun s q => mergeTrigramsRow q.1 s q.2) st

/-- Model of `CorpusProcessor.merge_with_existing` (lines 159-187): the three
count-addition loops in program order. -/
def mergeWithExisting (st : CorpusState) (data : ModelData) : CorpusState :=
  mergeTrigrams (mergeBigrams (mergeWordFreq st data.word_freq) data.bigrams)
    data.trigrams

/-- Count stored for key `k` in an association-list counter (`0` when
absent). -/
def lookupD (l : List (String × ℕ)) (k : String) : ℕ :=
  (l.lookup k).getD 0

/-- Count stored under the nested keys `k1`, `k2` of a two-level table. -/
def lookupD2 (l : List (String × List (String × ℕ))) (k1 k2 : String) : ℕ :=
  match l.lookup k1 with
  | none => 0
  | some inner => lookupD inner k2

theorem lookup_none_of_not_mem {β : Type} (l : List (String × β)) (k : String)
    (h : ¬ k ∈ l.map Prod.fst) : l.lookup k = none := by
  induction l with
  | nil => rfl
  | cons p t ih =>
    simp only [List.map_cons, List.mem_cons, not_or] at h
    have hb : (k == p.1) = false := beq_eq_false_iff_ne.mpr h.1
    simp only [List.lookup, hb]
    exact ih h.2

theorem lookupD_eq_zero_of_not_mem (l : List (String × ℕ)) (k : String)
    (h : ¬ k ∈ l.map Prod.fst) : lookupD l k = 0 := by
  unfold lookupD
  rw [lookup_none_of_not_mem l k h]
  rfl

theorem lookupD2_eq_zero_of_not_mem
    (l : List (String × List (String × ℕ))) (k1 k2 : String)
    (h : ¬ k1 ∈ l.map Prod.fst) : lookupD2 l k1 k2 = 0 := by
  unfold lookupD2
  rw [lookup_none_of_not_mem l k1 h]

theorem lookupD_cons_self {β : Type} (p : String × β) (t : List (String × β)) :
    (List.lookup p.1 (p :: t)) = some p.2 := by
  obtain ⟨a, b⟩ := p
  simp [List.lookup]

theorem lookupD_cons_ne {β : Type} (p : String × β) (t : List (String × β))
    (k : String) (h : k ≠ p.1) : (List.lookup k (p :: t)) = List.lookup k t := by
  obtain ⟨a, b⟩ := p
  simp only at h
  simp [List.lookup, beq_eq_false_iff_ne.mpr h]

theorem mergeWordFreq_preserve (l : List (String × ℕ)) (st : CorpusState) :
    (mergeWordFreq st l).bigrams = st.bigrams ∧
    (mergeWordFreq st l).trigrams = st.trigrams ∧
    (mergeWordFreq st l).total_bigrams = st.total_bigrams ∧
    (mergeWordFreq st l).total_trigrams = st.total_trigrams := by
  induction l generalizing st with
  | nil => exact ⟨rfl, rfl, rfl, rfl⟩
  | cons p t ih => exact ih _

theorem mergeWordFreq_word_freq (l : List (String × ℕ)) (st : CorpusState)
    (hnd : (l.map Prod.fst).Nodup) (w : String) :
    (mergeWordFreq st l).word_freq w = st.word_freq w + lookupD l w := by
  induction l generalizing st with
  | nil => simp [mergeWordFreq, lookupD, List.lookup]
  | cons p t ih =>
    simp only [List.map_cons, List.nodup_cons] at hnd
    have hstep : mergeWordFreq st (p :: t) =
        mergeWordFreq
          ({ st with
              word_freq := fun w =>
                if w = p.1 then st.word_freq w + p.2 else st.word_freq w,
              total_words := st.total_words + p.2 }) t := rfl
    rw [hstep, ih _ hnd.2]
    by_cases hw : w = p.1
    · have h0 : lookupD t w = 0 := by
        rw [hw]; exact lookupD_eq_zero_of_not_mem t p.1 hnd.1
      have h1 : lookupD (p :: t) w = p.2 := by
        unfold lookupD
        rw [hw, lookupD_cons_self]
        rfl
      simp only [if_pos hw, h0, h1]
      omega
    · have h1 : lookupD (p :: t) w = lookupD t w := by
        unfold lookupD
        rw [lookupD_cons_ne p t w hw]
      simp only [if_neg hw, h1]

theorem mergeWordFreq_total (l : List (String × ℕ)) (st : CorpusState) :
    (mergeWordFreq st l).total_words =
      st.total_words + (l.map fun p => p.2).sum := by
  induction l generalizing st with
  | nil => simp [mergeWordFreq]
  | cons p t ih =>
    have hstep : mergeWordFreq st (p :: t) =
        mergeWordFreq
          ({ st with
              word_freq := fun w =>
                if w = p.1 then st.word_freq w + p.2 else st.word_freq w,
              total_words := st.total_words + p.2 }) t := rfl
    rw [hstep, ih]
    simp only [List.map_cons, List.sum_cons]
    omega

theorem mergeBigramsRow_preserve (a : String) (l : List (String × ℕ))
    (st : CorpusState) :
    (mergeBigramsRow a st l).word_freq = st.word_freq ∧
    (mergeBigramsRow a st l).trigrams = st.trigrams ∧
    (mergeBigramsRow a st l).total_words = st.total_words ∧
    (mergeBigramsRow a st l).total_trigrams = st.total_trigrams := by
  induction l generalizing st with
  | nil => exact ⟨rfl, rfl, rfl, rfl⟩
  | cons p t ih => exact ih _

theorem mergeBigramsRow_bigrams (a : String) (l : List (String × ℕ))
    (st : CorpusState) (hnd : (l.map Prod.fst).Nodup) (w1 w2 : String) :
    (mergeBigramsRow a st l).bigrams w1 w2 =
      st.bigrams w1 w2 + (if w1 = a then lookupD l w2 else 0) := by
  induction l generalizing st with
  | nil => simp [mergeBigramsRow, lookupD, List.lookup]
  | cons p t ih =>
    simp only [List.map_cons, List.nodup_cons] at hnd
    have hstep : mergeBigramsRow a st (p :: t) =
        mergeBigramsRow a
          ({ st with
              bigrams := fun w1 w2 =>
                if w1 = a ∧ w2 = p.1 then st.bigrams w1 w2 + p.2
                else st.bigrams w1 w2,
              total_bigrams := st.total_bigrams + p.2 }) t := rfl
    rw [hstep, ih _ hnd.2]
    by_cases h1 : w1 = a
    · by_cases h2 : w2 = p.1
      · have h0 : lookupD t w2 = 0 := by
          rw [h2]; exact lookupD_eq_zero_of_not_mem t p.1 hnd.1
        have hl : lookupD (p :: t) w2 = p.2 := by
          unfold lookupD
          rw [h2, lookupD_cons_self]
          rfl
        simp only [if_pos (And.intro h1 h2), if_pos h1, h0, hl]
        omega
      · have hl : lookupD (p :: t) w2 = lookupD t w2 := by
          unfold lookupD
          rw [lookupD_cons_ne p t w2 h2]
        have hc : ¬ (w1 = a ∧ w2 = p.1) := fun hh => h2 hh.2
        simp only [if_neg hc, if_pos h1, hl]
    · have hc : ¬ (w1 = a ∧ w2 = p.1) := fun hh => h1 hh.1
      simp only [if_neg hc, if_neg h1]

theorem mergeBigramsRow_total (a : String) (l : List (String × ℕ))
    (st : CorpusState) :
    (mergeBigramsRow a st l).total_bigrams =
      st.total_bigrams + (l.map fun p => p.2).sum := by
  induction l generalizing st with
  | nil => simp [mergeBigramsRow]
  | cons p t ih =>
    have hstep : mergeBigramsRow a st (p :: t) =
        mergeBigramsRow a
          ({ st with
              bigrams := fun w1 w2 =>
                if w1 = a ∧ w2 = p.1 then st.bigrams w1 w2 + p.2
                else st.bigrams w1 w2,
              total_bigrams := st.total_bigrams + p.2 }) t := rfl
    rw [hstep, ih]
    simp only [List.map_cons, List.sum_cons]
    omega

theorem mergeBigrams_preserve (L : List (String × List (String × ℕ)))
    (st : CorpusState) :
    (mergeBigrams st L).word_freq = st.word_freq ∧
    (mergeBigrams st L).trigrams = st.trigrams ∧
    (mergeBigrams st L).total_words = st.total_words ∧
    (mergeBigrams st L).total_trigrams = st.total_trigrams := by
  induction L generalizing st with
  | nil => exact ⟨rfl, rfl, rfl, rfl⟩
  | cons q t ih =>
    have hrow := mergeBigramsRow_preserve q.1 q.2 st
    have hih := ih (mergeBigramsRow q.1 st q.2)
    exact ⟨hih.1.trans hrow.1, hih.2.1.trans hrow.2.1,
      hih.2.2.1.trans hrow.2.2.1, hih.2.2.2.trans hrow.2.2.2⟩

theorem mergeBigrams_bigrams (L : List (String × List (String × ℕ)))
    (st : CorpusState) (hnd : (L.map Prod.fst).Nodup)
    (hinner : ∀ q ∈ L, (q.2.map Prod.fst).Nodup) (w1 w2 : String) :
    (mergeBigrams st L).bigrams w1 w2 =
      st.bigrams w1 w2 + lookupD2 L w1 w2 := by
  induction L generalizing st with
  | nil => simp [mergeBigrams, lookupD2, List.lookup]
  | cons q t ih =>
    simp only [List.map_cons, List.nodup_cons] at hnd
    have hstep : mergeBigrams st (q :: t) =
        mergeBigrams (mergeBigramsRow q.1 st q.2) t := rfl
    rw [hstep, ih _ hnd.2 fun r hr => hinner r (List.mem_cons_of_mem q hr)]
    rw [mergeBigramsRow_bigrams q.1 q.2 st (hinner q (List.mem_cons_self q t))
      w1 w2]
    by_cases h1 : w1 = q.1
    · have h0 : lookupD2 t w1 w2 = 0 := by
        rw [h1]; exact lookupD2_eq_zero_of_not_mem t q.1 w2 hnd.1
      have hl : lookupD2 (q :: t) w1 w2 = lookupD q.2 w2 := by
        unfold lookupD2
        rw [h1, lookupD_cons_self]
      simp only [if_pos h1, h0, hl]
      omega
    · have hl : lookupD2 (q :: t) w1 w2 = lookupD2 t w1 w2 := by
        unfold lookupD2
        rw [lookupD_cons_ne q t w1 h1]
      simp only [if_neg h1, hl]
      omega

theorem mergeBigrams_total (L : List (String × List (String × ℕ)))
    (st : CorpusState) :
    (mergeBigrams st L).total_bigrams =
      st.total_bigrams + (L.map fun q => (q.2.map fun p => p.2).sum).sum := by
  induction L generalizing st with
  | nil => simp [mergeBigrams]
  | cons q t ih =>
    have hstep : mergeBigrams st (q :: t) =
        mergeBigrams (mergeBigramsRow q.1 st q.2) t := rfl
    rw [hstep, ih, mergeBigramsRow_total]
    simp only [List.map_cons, List.sum_cons]
    omega

theorem mergeTrigramsRow_preserve (a : String) (l : List (String × ℕ))
    (st : CorpusState) :
    (mergeTrigramsRow a st l).word_freq = st.word_freq ∧
    (mergeTrigramsRow a st l).bigrams = st.bigrams ∧
    (mergeTrigramsRow a st l).total_words = st.total_words ∧
    (mergeTrigramsRow a st l).total_bigrams = st.total_bigrams := by
  induction l generalizing st with
  | nil => exact ⟨rfl, rfl, rfl, rfl⟩
  | cons p t ih => exact ih _

theorem mergeTrigramsRow_trigrams (a : String) (l : List (String × ℕ))
    (st : CorpusState) (hnd : (l.map Prod.fst).Nodup) (k w : String) :
    (mergeTrigramsRow a st l).trigrams k w =
      st.trigrams k w + (if k = a then lookupD l w else 0) := by
  induction l generalizing st with
  | nil => simp [mergeTrigramsRow, lookupD, List.lookup]
  | cons p t ih =>
    simp only [List.map_cons, List.nodup_cons] at hnd
    have hstep : mergeTrigramsRow a st (p :: t) =
        mergeTrigramsRow a
          ({ st with
              trigrams := fun k w =>
                if k = a ∧ w = p.1 then st.trigrams k w + p.2
                else st.trigrams k w,
              total_trigrams := st.total_trigrams + p.2 }) t := rfl
    rw [hstep, ih _ hnd.2]
    by_cases h1 : k = a
    · by_cases h2 : w = p.1
      · have h0 : lookupD t w = 0 := by
          rw [h2]; exact lookupD_eq_zero_of_not_mem t p.1 hnd.1
        have hl : lookupD (p :: t) w = p.2 := by
          unfold lookupD
          rw [h2, lookupD_cons_self]
          rfl
        simp only [if_pos (And.intro h1 h2), if_pos h1, h0, hl]
        omega
      · have hl : lookupD (p :: t) w = lookupD t w := by
          unfold lookupD
          rw [lookupD_cons_ne p t w h2]
        have hc : ¬ (k = a ∧ w = p.1) := fun hh => h2 hh.2
        simp only [if_neg hc, if_pos h1, hl]
    · have hc : ¬ (k = a ∧ w = p.1) := fun hh => h1 hh.1
      simp only [if_neg hc, if_neg h1]

theorem mergeTrigramsRow_total (a : String) (l : List (String × ℕ))
    (st : CorpusState) :
    (mergeTrigramsRow a st l).total_trigrams =
      st.total_trigrams + (l.map fun p => p.2).sum := by
  induction l generalizing st with
  | nil => simp [mergeTrigramsRow]
  | cons p t ih =>
    have hstep : mergeTrigramsRow a st (p :: t) =
        mergeTrigramsRow a
          ({ st with
              trigrams := fun k w =>
                if k = a ∧ w = p.1 then st.trigrams k w + p.2
                else st.trigrams k w,
              total_trigrams := st.total_trigrams + p.2 }) t := rfl
    rw [hstep, ih]
    simp only [List.map_cons, List.sum_cons]
    omega

theorem mergeTrigrams_preserve (L : List (String × List (String × ℕ)))
    (st : CorpusState) :
    (mergeTrigrams st L).word_freq = st.word_freq ∧
    (mergeTrigrams st L).bigrams = st.bigrams ∧
    (mergeTrigrams st L).total_words = st.total_words ∧
    (mergeTrigrams st L).total_bigrams = st.total_bigrams := by
  induction L generalizing st with
  | nil => exact ⟨rfl, rfl, rfl, rfl⟩
  | cons q t ih =>
    have hrow := mergeTrigramsRow_preserve q.1 q.2 st
    have hih := ih (mergeTrigramsRow q.1 st q.2)
    exact ⟨hih.1.trans hrow.1, hih.2.1.trans hrow.2.1,
      hih.2.2.1.trans hrow.2.2.1, hih.2.2.2.trans hrow.2.2.2⟩

theorem mergeTrigrams_trigrams (L : List (String × List (String × ℕ)))
    (st : CorpusState) (hnd : (L.map Prod.fst).Nodup)
    (hinner : ∀ q ∈ L, (q.2.map Prod.fst).Nodup) (k w : String) :
    (mergeTrigrams st L).trigrams k w =
      st.trigrams k w + lookupD2 L k w := by
  induction L generalizing st with
  | nil => simp [mergeTrigrams, lookupD2, List.lookup]
  | cons q t ih =>
    simp only [List.map_cons, List.nodup_cons] at hnd
    have hstep : mergeTrigrams st (q :: t) =
        mergeTrigrams (mergeTrigramsRow q.1 st q.2) t := rfl
    rw [hstep, ih _ hnd.2 fun r hr => hinner r (List.mem_cons_of_mem q hr)]
    rw [mergeTrigramsRow_trigrams q.1 q.2 st
      (hinner q (List.mem_cons_self q t)) k w]
    by_cases h1 : k = q.1
    · have h0 : lookupD2 t k w = 0 := by
        rw [h1]; exact lookupD2_eq_zero_of_not_mem t q.1 w hnd.1
      have hl : lookupD2 (q :: t) k w = lookupD q.2 w := by
        unfold lookupD2
        rw [h1, lookupD_cons_self]
      simp only [if_pos h1, h0, hl]
      omega
    · have hl : lookupD2 (q :: t) k w = lookupD2 t k w := by
        unfold lookupD2
        rw [lookupD_cons_ne q t k h1]
      simp only [if_neg h1, hl]
      omega

theorem mergeTrigrams_total (L : List (String × List (String × ℕ)))
    (st : CorpusState) :
    (mergeTrigrams st L).total_trigrams =
      st.total_trigrams + (L.map fun q => (q.2.map fun p => p.2).sum).sum := by
  induction L generalizing st with
  | nil => simp [mergeTrigrams]
  | cons q t ih =>
    have hstep : mergeTrigrams st (q :: t) =
        mergeTrigrams (mergeTrigramsRow q.1 st q.2) t := rfl
    rw [hstep, ih, mergeTrigramsRow_total]
    simp only [List.map_cons, List.sum_cons]
    omega

/-- C3: merging a loaded model `B` into a processor state `A` adds counts
elementwise — every merged word, bigram and trigram count is the sum of
`A`'s count and `B`'s stored count — and the totals add up (given that `B`'s
stored totals are consistent with its tables, as every model saved by
`CorpusProcessor` is and as Python dict keys are unique); merging the empty
model leaves the state unchanged. -/
theorem C3_merge_elementwise (st : CorpusState) (data : ModelData)
    (hw : (data.word_freq.map Prod.fst).Nodup)
    (hb : (data.bigrams.map Prod.fst).Nodup)
    (hbi : ∀ q ∈ data.bigrams, (q.2.map Prod.fst).Nodup)
    (ht : (data.trigrams.map Prod.fst).Nodup)
    (hti : ∀ q ∈ data.trigrams, (q.2.map Prod.fst).Nodup)
    (hcw : data.total_words = (data.word_freq.map fun p => p.2).sum)
    (hcb : data.total_bigrams =
      (data.bigrams.map fun q => (q.2.map fun p => p.2).sum).sum)
    (hct : data.total_trigrams =
      (data.trigrams.map fun q => (q.2.map fun p => p.2).sum).sum) :
    (∀ w, (mergeWithExisting st data).word_freq w =
      st.word_freq w + lookupD data.word_freq w) ∧
    (∀ w1 w2, (mergeWithExisting st data).bigrams w1 w2 =
      st.bigrams w1 w2 + lookupD2 data.bigrams w1 w2) ∧
    (∀ k w, (mergeWithExisting st data).trigrams k w =
      st.trigrams k w + lookupD2 data.trigrams k w) ∧
    (mergeWithExisting st data).total_words =
      st.total_words + data.total_words ∧
    (mergeWithExisting st data).total_bigrams =
      st.total_bigrams + data.total_bigrams ∧
    (mergeWithExisting st data).total_trigrams =
      st.total_trigrams + data.total_trigrams ∧
    mergeWithExisting st emptyModelData = st := by
  unfold mergeWithExisting
  refine ⟨?_, ?_, ?_, ?_, ?_, ?_, rfl⟩
  · intro w
    rw [(mergeTrigrams_preserve _ _).1, (mergeBigrams_preserve _ _).1,
      mergeWordFreq_word_freq _ _ hw w]
  · intro w1 w2
    rw [(mergeTrigrams_preserve _ _).2.1,
      mergeBigrams_bigrams _ _ hb hbi w1 w2,
      (mergeWordFreq_preserve _ _).1]
  · intro k w
    rw [mergeTrigrams_trigrams _ _ ht hti k w,
      (mergeBigrams_preserve _ _).2.1, (mergeWordFreq_preserve _ _).2.1]
  · rw [(mergeTrigrams_preserve _ _).2.2.1, (mergeBigrams_preserve _ _).2.2.1,
      mergeWordFreq_total, hcw]
  · rw [(mergeTrigrams_preserve _ _).2.2.2, mergeBigrams_total,
      (mergeWordFreq_preserve _ _).2.2.1, hcb]
  · rw [mergeTrigrams_total, (mergeBigrams_preserve _ _).2.2.2,
      (mergeWordFreq_preserve _ _).2.2.2, hct]

/-- Concrete processor state for the C3 witness. -/
def wCorpus : CorpusState :=
  ⟨fun _ => 1, fun _ _ => 2, fun _ _ => 3, 10, 20, 30⟩

/-- Concrete consistent loaded snapshot for the C3 witness. -/
def wData : ModelData :=
  ⟨[("ab", 2)], [("ab", [("cd", 3)])], [("ab|cd", [("ef", 4)])], 2, 3, 4⟩

/-- C3 witness: the hypotheses hold for a concrete consistent snapshot, and
the merged counts and totals are the stated sums. -/
theorem C3_merge_elementwise_witness :
    ((wData.word_freq.map Prod.fst).Nodup ∧
      wData.total_words = (wData.word_freq.map fun p => p.2).sum) ∧
    (mergeWithExisting wCorpus wData).word_freq "ab" =
      wCorpus.word_freq "ab" + lookupD wData.word_freq "ab" ∧
    (mergeWithExisting wCorpus wData).bigrams "ab" "cd" =
      wCorpus.bigrams "ab" "cd" + lookupD2 wData.bigrams "ab" "cd" ∧
    (mergeWithExisting wCorpus wData).total_words =
      wCorpus.total_words + wData.total_words ∧
    mergeWithExisting wCorpus emptyModelData = wCorpus := by
  have h := C3_merge_elementwise wCorpus wData (by decide) (by decide)
    (by decide) (by decide) (by decide) (by decide) (by decide) (by decide)
  exact ⟨⟨by decide, by decide⟩, h.1 "ab", h.2.1 "ab" "cd", h.2.2.2.1,
    h.2.2.2.2.2.2⟩
